import Mathlib

/-!
Verification of the marching-cubes core of `bevy_marching_cube`.

The development shallowly embeds the core of the repository:

* `src/iters.rs` — the inclusive 3-D traversal iterator `Iter3d`;
* `src/chunk.rs` — the voxel chunk (`Chunk`: flat scalar storage plus the
  `index`/`get`/`set` addressing operations) and the conversion of a
  triangle soup (`ChunkMesh`) to an indexed, normal-deduplicated mesh;
* `src/main.rs` — `setup_chunks` (chunk construction), the `update_chunk`
  sweep, `march_cube`, `vertex_interp` and `GridCell`.

Machine integers (`u32`, `usize`) are embedded as `Nat`: the program only
ever uses coordinates far below `2^32`, so overflow never matters.  The
scalar field values (`f32` in the source) are embedded as `ℚ`: the claims
under verification concern branch structure (comparisons against an
isolevel / epsilon guards) and exact component-wise equality, both of
which an ordered field models; `f32` rounding plays no role in them.
Rust `Vec` indexing panics are made explicit with `Option`.

The table module `src/marching_cube_tables.rs` is declared by `main.rs`
but its file is not part of the sources; per the spec (§4.3) its three
tables are opaque, externally sourced constants, so `march_cube` is
embedded parametrically over the tables.
-/

/-- `bevy::math::UVec3`, the unsigned integer 3-vector used by the
iterator and as a lattice coordinate. -/
structure UVec3 where
  x : Nat
  y : Nat
  z : Nat
deriving DecidableEq, Repr

/-- `Iter3d` (src/iters.rs): linear iterator across a 3-D coordinate
space, inclusive of the minimum and maximum coordinates. -/
structure Iter3d where
  track : UVec3
  min : UVec3
  max : UVec3
deriving DecidableEq, Repr

/-- `Iter3d::new` (src/iters.rs): `track` starts at `min`. -/
def Iter3d.new (min max : UVec3) : Iter3d :=
  ⟨min, min, max⟩

/-- `Iter3d::reset` (src/iters.rs): sets `track` back to `min`. -/
def Iter3d.reset (s : Iter3d) : Iter3d :=
  { s with track := s.min }

/-- `<Iter3d as Iterator>::next` (src/iters.rs).  The source mutates
`self` and returns `Option<UVec3>`; here the successor state is returned
alongside the yielded value.  Control flow is kept exactly: the saved
`ret` is yielded; `None` once `track.z` passes `max.z`; an in-row step
(`track.x += 1`) returns early; a row wrap (`y += 1, x = min.x`) falls
through to the layer-wrap check (`z += 1, y = min.y`). -/
def Iter3d.next (s : Iter3d) : Option (UVec3 × Iter3d) :=
  let ret := s.track
  if s.track.z > s.max.z then
    none
  else if s.track.x ≥ s.max.x then
    let afterRow : UVec3 := ⟨s.min.x, s.track.y + 1, s.track.z⟩
    let afterLayer : UVec3 :=
      if afterRow.y > s.max.y then ⟨afterRow.x, s.min.y, afterRow.z + 1⟩ else afterRow
    some (ret, { s with track := afterLayer })
  else
    some (ret, { s with track := ⟨s.track.x + 1, s.track.y, s.track.z⟩ })

/-- Drive `Iter3d.next` for at most `fuel` steps, collecting the yielded
coordinates in order.  Any `fuel` at least the number of remaining
elements collects the whole (finite) sequence. -/
def Iter3d.runFuel : Nat → Iter3d → List UVec3
  | 0, _ => []
  | fuel + 1, s =>
    match s.next with
    | none => []
    | some (v, s') => v :: Iter3d.runFuel fuel s'

/-- Exhaust the iterator: the fuel bound `(max.z+2)*((max.y+2)*(max.x+2))`
dominates the count of coordinates in the inclusive box. -/
def Iter3d.toList (s : Iter3d) : List UVec3 :=
  Iter3d.runFuel ((s.max.z + 2) * ((s.max.y + 2) * (s.max.x + 2))) s

/-- The tail of one x-row, at height `y` and depth `z`: x runs from `x`
up to `mx.x` inclusive. -/
def rowFrom (mx : UVec3) (x y z : Nat) : List UVec3 :=
  (List.range' x (mx.x + 1 - x)).map fun a => ⟨a, y, z⟩

/-- The full rows of one layer at depth `z`, for y from `y` up to `mx.y`
inclusive. -/
def rowsFrom (mn mx : UVec3) (y z : Nat) : List UVec3 :=
  (List.range' y (mx.y + 1 - y)).flatMap fun b => rowFrom mx mn.x b z

/-- The full layers for z from `z` up to `mx.z` inclusive. -/
def layersFrom (mn mx : UVec3) (z : Nat) : List UVec3 :=
  (List.range' z (mx.z + 1 - z)).flatMap fun c => rowsFrom mn mx mn.y c

/-- The row-major enumeration of the inclusive box `[mn, mx]`:
x varies fastest, then y, then z slowest. -/
def rowMajor (mn mx : UVec3) : List UVec3 :=
  layersFrom mn mx mn.z

/-- The row-major tail still to be produced from a live iterator state. -/
def remaining (s : Iter3d) : List UVec3 :=
  rowFrom s.max s.track.x s.track.y s.track.z ++
    (rowsFrom s.min s.max (s.track.y + 1) s.track.z ++
      layersFrom s.min s.max (s.track.z + 1))

theorem rowFrom_of_gt (mx : UVec3) (x y z : Nat) (h : mx.x < x) :
    rowFrom mx x y z = [] := by
  have : mx.x + 1 - x = 0 := by omega
  simp [rowFrom, this]

theorem rowsFrom_of_gt (mn mx : UVec3) (y z : Nat) (h : mx.y < y) :
    rowsFrom mn mx y z = [] := by
  have : mx.y + 1 - y = 0 := by omega
  simp [rowsFrom, this]

theorem layersFrom_of_gt (mn mx : UVec3) (z : Nat) (h : mx.z < z) :
    layersFrom mn mx z = [] := by
  have : mx.z + 1 - z = 0 := by omega
  simp [layersFrom, this]

theorem rowFrom_eq_cons (mx : UVec3) (x y z : Nat) (h : x ≤ mx.x) :
    rowFrom mx x y z = ⟨x, y, z⟩ :: rowFrom mx (x + 1) y z := by
  have hn : mx.x + 1 - x = (mx.x - x) + 1 := by omega
  have hn' : mx.x + 1 - (x + 1) = mx.x - x := by omega
  simp [rowFrom, hn, hn', List.range'_succ]

theorem rowsFrom_eq_append (mn mx : UVec3) (y z : Nat) (h : y ≤ mx.y) :
    rowsFrom mn mx y z = rowFrom mx mn.x y z ++ rowsFrom mn mx (y + 1) z := by
  have hn : mx.y + 1 - y = (mx.y - y) + 1 := by omega
  have hn' : mx.y + 1 - (y + 1) = mx.y - y := by omega
  simp [rowsFrom, hn, hn', List.range'_succ]

theorem layersFrom_eq_append (mn mx : UVec3) (z : Nat) (h : z ≤ mx.z) :
    layersFrom mn mx z = rowsFrom mn mx mn.y z ++ layersFrom mn mx (z + 1) := by
  have hn : mx.z + 1 - z = (mx.z - z) + 1 := by omega
  have hn' : mx.z + 1 - (z + 1) = mx.z - z := by omega
  simp [layersFrom, hn, hn', List.range'_succ]

theorem runFuel_of_exhausted (fuel : Nat) (s : Iter3d) (h : s.max.z < s.track.z) :
    Iter3d.runFuel fuel s = [] := by
  cases fuel with
  | zero => rfl
  | succ n => simp [Iter3d.runFuel, Iter3d.next, h]

/-- One `next` step from a live in-range state peels exactly the head of
the remaining row-major tail. -/
theorem runFuel_eq_remaining : ∀ (fuel : Nat) (t mn mx : UVec3),
    mn.x ≤ t.x → t.x ≤ mx.x → mn.y ≤ t.y → t.y ≤ mx.y → mn.z ≤ t.z → t.z ≤ mx.z →
    (remaining ⟨t, mn, mx⟩).length ≤ fuel →
    Iter3d.runFuel fuel ⟨t, mn, mx⟩ = remaining ⟨t, mn, mx⟩
  | 0, t, mn, mx, _, hx2, _, _, _, _, hlen => by
    exfalso
    have : remaining ⟨t, mn, mx⟩ ≠ [] := by
      simp only [remaining, rowFrom_eq_cons mx t.x t.y t.z hx2]
      simp
    cases hrem : remaining ⟨t, mn, mx⟩ with
    | nil => exact this hrem
    | cons a l => rw [hrem] at hlen; simp at hlen
  | fuel + 1, t, mn, mx, hx1, hx2, hy1, hy2, hz1, hz2, hlen => by
    by_cases hx : t.x ≥ mx.x
    · have hxe : t.x = mx.x := le_antisymm hx2 hx
      by_cases hy : t.y + 1 > mx.y
      · have hye : t.y = mx.y := by omega
        have hrow : rowFrom mx t.x t.y t.z = [⟨t.x, t.y, t.z⟩] := by
          rw [rowFrom_eq_cons mx t.x t.y t.z hx2, rowFrom_of_gt mx (t.x + 1) t.y t.z (by omega)]
        have hrows : rowsFrom mn mx (t.y + 1) t.z = [] :=
          rowsFrom_of_gt mn mx (t.y + 1) t.z (by omega)
        by_cases hz : t.z ≥ mx.z
        · have hze : t.z = mx.z := le_antisymm hz2 hz
          have hlay : layersFrom mn mx (t.z + 1) = [] :=
            layersFrom_of_gt mn mx (t.z + 1) (by omega)
          have hnext : Iter3d.runFuel (fuel + 1) ⟨t, mn, mx⟩ =
              t :: Iter3d.runFuel fuel ⟨⟨mn.x, mn.y, t.z + 1⟩, mn, mx⟩ := by
            simp [Iter3d.runFuel, Iter3d.next, Nat.not_lt.mpr hz2, hx, hy]
          rw [hnext, runFuel_of_exhausted fuel _ (by simp; omega)]
          simp [remaining, hrow, hrows, hlay]
        · push_neg at hz
          have hnext : Iter3d.runFuel (fuel + 1) ⟨t, mn, mx⟩ =
              t :: Iter3d.runFuel fuel ⟨⟨mn.x, mn.y, t.z + 1⟩, mn, mx⟩ := by
            simp [Iter3d.runFuel, Iter3d.next, Nat.not_lt.mpr hz2, hx, hy]
          have hsplit : remaining ⟨t, mn, mx⟩ =
              t :: remaining ⟨⟨mn.x, mn.y, t.z + 1⟩, mn, mx⟩ := by
            simp only [remaining, hrow, hrows]
            rw [layersFrom_eq_append mn mx (t.z + 1) (by omega),
              rowsFrom_eq_append mn mx mn.y (t.z + 1) (by omega)]
            simp
          rw [hnext, hsplit]
          rw [hsplit] at hlen
          simp only [List.length_cons] at hlen
          rw [runFuel_eq_remaining fuel ⟨mn.x, mn.y, t.z + 1⟩ mn mx (by simp) (by simp; omega)
            (by simp) (by simp; omega) (by simp; omega) (by simp; omega) (by omega)]
      · push_neg at hy
        have hrow : rowFrom mx t.x t.y t.z = [⟨t.x, t.y, t.z⟩] := by
          rw [rowFrom_eq_cons mx t.x t.y t.z hx2, rowFrom_of_gt mx (t.x + 1) t.y t.z (by omega)]
        have hnext : Iter3d.runFuel (fuel + 1) ⟨t, mn, mx⟩ =
            t :: Iter3d.runFuel fuel ⟨⟨mn.x, t.y + 1, t.z⟩, mn, mx⟩ := by
          simp [Iter3d.runFuel, Iter3d.next, Nat.not_lt.mpr hz2, hx, Nat.not_lt.mpr hy]
        have hsplit : remaining ⟨t, mn, mx⟩ =
            t :: remaining ⟨⟨mn.x, t.y + 1, t.z⟩, mn, mx⟩ := by
          simp only [remaining, hrow]
          rw [rowsFrom_eq_append mn mx (t.y + 1) t.z (by omega)]
          simp
        rw [hnext, hsplit]
        rw [hsplit] at hlen
        simp only [List.length_cons] at hlen
        rw [runFuel_eq_remaining fuel ⟨mn.x, t.y + 1, t.z⟩ mn mx (by simp) (by simp; omega)
          (by simp; omega) (by simp; omega) (by simp; omega) (by simp; omega) (by omega)]
    · push_neg at hx
      have hnext : Iter3d.runFuel (fuel + 1) ⟨t, mn, mx⟩ =
          t :: Iter3d.runFuel fuel ⟨⟨t.x + 1, t.y, t.z⟩, mn, mx⟩ := by
        simp [Iter3d.runFuel, Iter3d.next, Nat.not_lt.mpr hz2, Nat.not_le.mpr hx]
      have hsplit : remaining ⟨t, mn, mx⟩ =
          t :: remaining ⟨⟨t.x + 1, t.y, t.z⟩, mn, mx⟩ := by
        simp only [remaining]
        rw [rowFrom_eq_cons mx t.x t.y t.z hx2]
        simp
      rw [hnext, hsplit]
      rw [hsplit] at hlen
      simp only [List.length_cons] at hlen
      rw [runFuel_eq_remaining fuel ⟨t.x + 1, t.y, t.z⟩ mn mx (by simp; omega) (by simp; omega)
        (by simp; omega) (by simp; omega) (by simp; omega) (by simp; omega) (by omega)]

theorem sum_map_const_range' (c : Nat) : ∀ (n a : Nat),
    (((List.range' a n)).map (fun _ => c)).sum = n * c
  | 0, _ => by simp
  | n + 1, a => by
    rw [List.range'_succ]
    simp [sum_map_const_range' c n (a + 1), Nat.succ_mul, Nat.add_comm]

theorem length_rowFrom (mx : UVec3) (x y z : Nat) :
    (rowFrom mx x y z).length = mx.x + 1 - x := by
  simp [rowFrom]

theorem length_rowsFrom (mn mx : UVec3) (y z : Nat) :
    (rowsFrom mn mx y z).length = (mx.y + 1 - y) * (mx.x + 1 - mn.x) := by
  simp only [rowsFrom, List.length_flatMap, Function.comp_def, length_rowFrom]
  exact sum_map_const_range' _ _ _

theorem length_layersFrom (mn mx : UVec3) (z : Nat) :
    (layersFrom mn mx z).length =
      (mx.z + 1 - z) * ((mx.y + 1 - mn.y) * (mx.x + 1 - mn.x)) := by
  simp only [layersFrom, List.length_flatMap, Function.comp_def, length_rowsFrom]
  exact sum_map_const_range' _ _ _

theorem remaining_new (mn mx : UVec3) (hy : mn.y ≤ mx.y) (hz : mn.z ≤ mx.z) :
    remaining (Iter3d.new mn mx) = rowMajor mn mx := by
  show rowFrom mx mn.x mn.y mn.z ++ (rowsFrom mn mx (mn.y + 1) mn.z ++
    layersFrom mn mx (mn.z + 1)) = rowMajor mn mx
  rw [rowMajor, layersFrom_eq_append mn mx mn.z hz, rowsFrom_eq_append mn mx mn.y mn.z hy]
  simp [List.append_assoc]

/-- Exhaustively iterating a freshly created `Iter3d` over a nonempty box
produces exactly the row-major enumeration of the inclusive box, and so
does any run with enough fuel. -/
theorem runFuel_new_eq_rowMajor (mn mx : UVec3)
    (hx : mn.x ≤ mx.x) (hy : mn.y ≤ mx.y) (hz : mn.z ≤ mx.z)
    (fuel : Nat) (hfuel : (rowMajor mn mx).length ≤ fuel) :
    Iter3d.runFuel fuel (Iter3d.new mn mx) = rowMajor mn mx := by
  rw [show Iter3d.new mn mx = ⟨mn, mn, mx⟩ from rfl,
    runFuel_eq_remaining fuel mn mn mx le_rfl hx le_rfl hy le_rfl hz
      (by rw [show (⟨mn, mn, mx⟩ : Iter3d) = Iter3d.new mn mx from rfl,
        remaining_new mn mx hy hz]; exact hfuel)]
  exact remaining_new mn mx hy hz

theorem length_rowMajor (mn mx : UVec3) :
    (rowMajor mn mx).length =
      (mx.z + 1 - mn.z) * ((mx.y + 1 - mn.y) * (mx.x + 1 - mn.x)) :=
  length_layersFrom mn mx mn.z

theorem toList_new_eq_rowMajor (mn mx : UVec3)
    (hx : mn.x ≤ mx.x) (hy : mn.y ≤ mx.y) (hz : mn.z ≤ mx.z) :
    (Iter3d.new mn mx).toList = rowMajor mn mx := by
  show Iter3d.runFuel ((mx.z + 2) * ((mx.y + 2) * (mx.x + 2))) (Iter3d.new mn mx) =
    rowMajor mn mx
  apply runFuel_new_eq_rowMajor mn mx hx hy hz
  rw [length_rowMajor]
  exact Nat.mul_le_mul (by omega) (Nat.mul_le_mul (by omega) (by omega))

theorem mem_rowFrom {p : UVec3} {mx : UVec3} {x y z : Nat} (h : p ∈ rowFrom mx x y z) :
    (x ≤ p.x ∧ p.x ≤ mx.x) ∧ p.y = y ∧ p.z = z := by
  obtain ⟨px, py, pz⟩ := p
  simp only [rowFrom, List.mem_map, List.mem_range'_1, UVec3.mk.injEq] at h
  obtain ⟨a, ha, rfl, rfl, rfl⟩ := h
  dsimp only
  omega

theorem mem_rowsFrom {p : UVec3} {mn mx : UVec3} {y z : Nat} (h : p ∈ rowsFrom mn mx y z) :
    (mn.x ≤ p.x ∧ p.x ≤ mx.x) ∧ (y ≤ p.y ∧ p.y ≤ mx.y) ∧ p.z = z := by
  simp only [rowsFrom, List.mem_flatMap, List.mem_range'_1] at h
  obtain ⟨b, hb, hrow⟩ := h
  have := mem_rowFrom hrow
  omega

theorem mem_layersFrom {p : UVec3} {mn mx : UVec3} {z : Nat} (h : p ∈ layersFrom mn mx z) :
    (mn.x ≤ p.x ∧ p.x ≤ mx.x) ∧ (mn.y ≤ p.y ∧ p.y ≤ mx.y) ∧ (z ≤ p.z ∧ p.z ≤ mx.z) := by
  simp only [layersFrom, List.mem_flatMap, List.mem_range'_1] at h
  obtain ⟨c, hc, hrows⟩ := h
  have := mem_rowsFrom hrows
  omega

theorem mem_rowMajor {mn mx : UVec3} (p : UVec3) :
    p ∈ rowMajor mn mx ↔
      (mn.x ≤ p.x ∧ p.x ≤ mx.x) ∧ (mn.y ≤ p.y ∧ p.y ≤ mx.y) ∧
        (mn.z ≤ p.z ∧ p.z ≤ mx.z) := by
  constructor
  · exact fun h => mem_layersFrom h
  · obtain ⟨px, py, pz⟩ := p
    rintro ⟨⟨hx1, hx2⟩, ⟨hy1, hy2⟩, ⟨hz1, hz2⟩⟩
    dsimp only at hx1 hx2 hy1 hy2 hz1 hz2
    simp only [rowMajor, layersFrom, rowsFrom, rowFrom, List.mem_flatMap, List.mem_map,
      List.mem_range'_1, UVec3.mk.injEq]
    exact ⟨pz, by omega, py, by omega, px, by omega, rfl, rfl, rfl⟩

theorem nodup_rowFrom (mx : UVec3) (x y z : Nat) : (rowFrom mx x y z).Nodup := by
  apply List.Nodup.map _ (List.nodup_range' _ _)
  intro a b hab
  simpa using hab

theorem nodup_rowsFrom (mn mx : UVec3) (y z : Nat) : (rowsFrom mn mx y z).Nodup := by
  rw [rowsFrom, List.nodup_flatMap]
  refine ⟨fun b _ => nodup_rowFrom mx mn.x b z, ?_⟩
  apply List.Pairwise.imp _ (List.nodup_range' y (mx.y + 1 - y))
  intro b₁ b₂ hne
  intro p hp1 hp2
  exact hne ((mem_rowFrom hp1).2.1 ▸ (mem_rowFrom hp2).2.1)

theorem nodup_layersFrom (mn mx : UVec3) (z : Nat) : (layersFrom mn mx z).Nodup := by
  rw [layersFrom, List.nodup_flatMap]
  refine ⟨fun c _ => nodup_rowsFrom mn mx mn.y c, ?_⟩
  apply List.Pairwise.imp _ (List.nodup_range' z (mx.z + 1 - z))
  intro c₁ c₂ hne
  intro p hp1 hp2
  exact hne ((mem_rowsFrom hp1).2.2 ▸ (mem_rowsFrom hp2).2.2)

theorem nodup_rowMajor (mn mx : UVec3) : (rowMajor mn mx).Nodup :=
  nodup_layersFrom mn mx mn.z

theorem count_rowMajor (mn mx : UVec3) (p : UVec3) :
    (rowMajor mn mx).count p =
      if (mn.x ≤ p.x ∧ p.x ≤ mx.x) ∧ (mn.y ≤ p.y ∧ p.y ≤ mx.y) ∧
          (mn.z ≤ p.z ∧ p.z ≤ mx.z) then 1 else 0 := by
  split
  · next h => exact List.count_eq_one_of_mem (nodup_rowMajor mn mx) ((mem_rowMajor p).mpr h)
  · next h => exact List.count_eq_zero_of_not_mem (fun hmem => h ((mem_rowMajor p).mp hmem))

/-- `Chunk` (src/chunk.rs): dense scalar field storage (`points`, the
`Vec<f32>`) plus the integer edge-length field `size`. -/
structure Chunk where
  points : List ℚ
  size : Nat
deriving DecidableEq, Repr

/-- `Chunk::new` (src/chunk.rs). -/
def Chunk.new (points : List ℚ) (size : Nat) : Chunk :=
  ⟨points, size⟩

/-- `Chunk::index` (src/chunk.rs):
`(pos.z as usize * size * size) + (pos.y as usize * size) + pos.x as usize`.
The source takes `pos : Vec3`; every caller passes integer lattice
coordinates (built with `UVec3::as_vec3`), on which the `as usize`
truncation is the identity, so the embedding takes `UVec3` directly. -/
def Chunk.index (c : Chunk) (pos : UVec3) : Nat :=
  pos.z * c.size * c.size + (pos.y * c.size + pos.x)

/-- `Chunk::get` (src/chunk.rs): `self.points[self.index(pos)]`.
Rust `Vec` indexing panics when the flat index reaches past the end;
the panic is explicit as `none`. -/
def Chunk.get (c : Chunk) (pos : UVec3) : Option ℚ :=
  c.points[c.index pos]?

/-- `Chunk::set` (src/chunk.rs): `self.points[index] = value`, the panic
on an out-of-range flat index explicit as `none`. -/
def Chunk.set (c : Chunk) (pos : UVec3) (value : ℚ) : Option Chunk :=
  if c.index pos < c.points.length then
    some ⟨c.points.set (c.index pos) value, c.size⟩
  else
    none

/-- `Chunk::new_iter_3d` (src/chunk.rs):
`Iter3d::new(UVec3::ZERO, UVec3::new(size, size, size))`. -/
def Chunk.new_iter_3d (size : Nat) : Iter3d :=
  Iter3d.new ⟨0, 0, 0⟩ ⟨size, size, size⟩

/-- `CHUNK_SIZE` (src/main.rs). -/
def CHUNK_SIZE : Nat := 4

/-- The chunk constructed by `setup_chunks` (src/main.rs):
`Chunk::new(vec![0.0; (size + 1).pow(3)], size)` with `size = CHUNK_SIZE`.
Every iteration of the spawn loop (`CHUNK_COUNT = 1`) constructs this
same chunk; only its transform differs. -/
def setupChunk : Chunk :=
  Chunk.new (List.replicate ((CHUNK_SIZE + 1) ^ 3) 0) CHUNK_SIZE

/-- The cell origins one `update_chunk` sweep (src/main.rs) marches for a
chunk whose iterator component is `Chunk::new_iter_3d(size)` (as inserted
by `setup_chunks`): the sweep calls `chunk_iter.reset()` and then drains
the iterator, building one `GridCell` per yielded position. -/
def sweepOrigins (size : Nat) : List UVec3 :=
  ((Chunk.new_iter_3d size).reset).toList

/-- `bevy::math::Vec3` as used by the marching-cubes geometry, in exact
arithmetic: a rational 3-vector with componentwise `+`, `-` and scalar
multiplication (the `Prod` instances). -/
abbrev Vec3 : Type := ℚ × ℚ × ℚ

/-- A triangle (src/main.rs `type Triangle = [Vec3; 3]`). -/
abbrev Triangle : Type := Vec3 × Vec3 × Vec3

/-- `vertex_interp` (src/main.rs): interpolate between two corner
positions proportionally to the isolevel.  The three guards compare
against the literal `0.00001` = 1/100000; the final branch is the linear
interpolation `p1 + mu * (p2 - p1)` with
`mu = (isolevel - valp1) / (valp2 - valp1)`. -/
def vertex_interp (isolevel : ℚ) (p1 p2 : Vec3) (valp1 valp2 : ℚ) : Vec3 :=
  if |isolevel - valp1| < 1 / 100000 then p1
  else if |isolevel - valp2| < 1 / 100000 then p2
  else if |valp1 - valp2| < 1 / 100000 then p1
  else
    let mu := (isolevel - valp1) / (valp2 - valp1)
    p1 + mu • (p2 - p1)

/-- `GridCell` (src/main.rs): 8 corner positions and the 8 scalar values
sampled at them. -/
structure GridCell where
  vertex_position : Fin 8 → Vec3
  value : Fin 8 → ℚ

/-- `GridCell::new` (src/main.rs): the fixed corner offsets
(0,0,0),(1,0,0),(1,0,1),(0,0,1),(0,1,0),(1,1,0),(1,1,1),(0,1,1) added to
`pos`; values zero-initialised. -/
def GridCell.new (pos : Vec3) : GridCell where
  vertex_position := fun i =>
    pos + match i with
      | 0 => ((0 : ℚ), (0 : ℚ), (0 : ℚ))
      | 1 => (1, 0, 0)
      | 2 => (1, 0, 1)
      | 3 => (0, 0, 1)
      | 4 => (0, 1, 0)
      | 5 => (1, 1, 0)
      | 6 => (1, 1, 1)
      | 7 => (0, 1, 1)
  value := fun _ => 0

/-- The `cube_index` loop of `march_cube` (src/main.rs): starting from 0,
bit `i` is OR-ed in (`cube_index |= 1 << i`) iff `value[i] < isolevel`,
for `i` in `0..8`. -/
def cube_index (grid : GridCell) (isolevel : ℚ) : Nat :=
  (List.finRange 8).foldl
    (fun acc i => if grid.value i < isolevel then acc ||| (1 <<< (i : Nat)) else acc) 0

/-- The triangle-emission loop of `march_cube` (src/main.rs):
`for i in (0..16).step_by(3)` breaks at the first negative entry of the
`TRIANGLE_TABLE` row and otherwise pushes the interpolated edge vertices
of slots `i+2`, `i+1`, `i`, in that order.  `i` is the current slot and
`fuel` the number of loop iterations left (six when starting at 0). -/
def triangle_walk (row : Nat → Int) (verts : Nat → Vec3) : Nat → Nat → List Triangle
  | _, 0 => []
  | i, fuel + 1 =>
    if row i < 0 then []
    else
      (verts (row (i + 2)).toNat, verts (row (i + 1)).toNat, verts (row i).toNat) ::
        triangle_walk row verts (i + 3) fuel

/-- `march_cube` (src/main.rs), parametric over the three topology
tables: their module `src/marching_cube_tables.rs` is declared by
`main.rs` but absent from the sources.  Modelled from the spec (§4.3):
`EDGE_TABLE` maps an 8-bit sign pattern to a 12-bit edge mask,
`EDGE_CONNECTION` maps each of the 12 edge ids to the pair of corner
indices (0–7) the edge connects, and `TRIANGLE_TABLE` rows are read as
`triTable cube_index slot`, slots `0..16`, sentinel-terminated by a
negative entry.  As in the source, a `vertices` slot is interpolated
exactly when its bit is set in the edge mask and is left at `Vec3::ZERO`
otherwise; table entries index the 12-slot `vertices` array (ids 0–11
per the spec; the embedding returns `Vec3::ZERO` out of range where the
source would panic).

`march_vertices` is the vertex-interpolation loop of `march_cube`
(src/main.rs): the 12-slot `vertices` array, slot `i` interpolated via
`EDGE_CONNECTION[i]` iff bit `i` of the edge mask is set. -/
def march_vertices (edgeConn : Fin 12 → Fin 8 × Fin 8) (grid : GridCell)
    (isolevel : ℚ) (edge : Nat) : Nat → Vec3 := fun n =>
  if h : n < 12 then
    if edge &&& (1 <<< n) ≠ 0 then
      let c := edgeConn ⟨n, h⟩
      vertex_interp isolevel (grid.vertex_position c.1) (grid.vertex_position c.2)
        (grid.value c.1) (grid.value c.2)
    else ((0 : ℚ), (0 : ℚ), (0 : ℚ))
  else ((0 : ℚ), (0 : ℚ), (0 : ℚ))

def march_cube (edgeTable : Nat → Nat) (edgeConn : Fin 12 → Fin 8 × Fin 8)
    (triTable : Nat → Nat → Int) (grid : GridCell) (isolevel : ℚ) :
    Option (List Triangle) :=
  let cubeIndex := cube_index grid isolevel
  let edge := edgeTable cubeIndex
  if edge = 0 then none
  else
    some (triangle_walk (triTable cubeIndex)
      (march_vertices edgeConn grid isolevel edge) 0 6)

/-- The sentinel-terminated triple starts of a `TRIANGLE_TABLE` row: the
numbers `j` (of the at most six triples at slots `3j`) up to but not
including the first one whose leading entry is negative. -/
def sentinel_triples (row : Nat → Int) : List Nat :=
  (List.range 6).takeWhile fun j => decide (0 ≤ row (3 * j))

/-- One triangle-vertex step of the dedup loop of
`From<ChunkMesh> for Mesh` (src/chunk.rs): search the emitted
`(vertex, normal)` pairs for the first equal pair
(`Iterator::position(|&(v, n)| v == vertex && n == normal)`); on a hit
push that index, otherwise push the pair and then index
`vertices_normals.len() - 1`, i.e. the pre-push length. -/
def push_vertex (st : List (Vec3 × Vec3) × List Nat) (p : Vec3 × Vec3) :
    List (Vec3 × Vec3) × List Nat :=
  match (st.1).findIdx? (fun q => q = p) with
  | some index => (st.1, st.2 ++ [index])
  | none => (st.1 ++ [p], st.2 ++ [st.1.length])

/-- The dedup loop of `From<ChunkMesh> for Mesh` (src/chunk.rs): for each
triangle `[a, b, c]` compute its face normal and push `a`, `b`, `c` in
order, each paired with that normal.  The source's `face_normal` is
`(b - a).cross(c - a).normalize()`, whose square root has no exact
(computable) counterpart; the dedup logic never inspects the normal
beyond equality, so the normal function is a parameter. -/
def process_triangle (face_normal : Vec3 → Vec3 → Vec3 → Vec3)
    (st : List (Vec3 × Vec3) × List Nat) (tri : Triangle) :
    List (Vec3 × Vec3) × List Nat :=
  let normal := face_normal tri.1 tri.2.1 tri.2.2
  push_vertex (push_vertex (push_vertex st (tri.1, normal)) (tri.2.1, normal))
    (tri.2.2, normal)

def build_vertices_indices (face_normal : Vec3 → Vec3 → Vec3 → Vec3)
    (triangles : List Triangle) : List (Vec3 × Vec3) × List Nat :=
  triangles.foldl (process_triangle face_normal) ([], [])

/-- The indexed mesh `From<ChunkMesh> for Mesh` (src/chunk.rs) hands to
the renderer: parallel position / UV / normal arrays read off the
deduplicated `(vertex, normal)` table, plus the index list. -/
structure IndexedMesh where
  positions : List Vec3
  normals : List Vec3
  uvs : List (ℚ × ℚ)
  indices : List Nat
deriving DecidableEq

/-- Assembly of the output mesh (src/chunk.rs lines 72–87): `positions`
and `normals` are the components of the table entries in order, every
`uvs` entry is `[0.0, 0.0]`. -/
def chunkMeshToMesh (face_normal : Vec3 → Vec3 → Vec3 → Vec3)
    (triangles : List Triangle) : IndexedMesh :=
  let vn := build_vertices_indices face_normal triangles
  { positions := vn.1.map Prod.fst
    normals := vn.1.map Prod.snd
    uvs := vn.1.map fun _ => (0, 0)
    indices := vn.2 }

theorem testBit_foldl_cube (iso : ℚ) (v : Fin 8 → ℚ) :
    ∀ (l : List (Fin 8)) (acc : Nat) (j : Fin 8),
      (l.foldl (fun acc i => if v i < iso then acc ||| (1 <<< (i : Nat)) else acc)
          acc).testBit j =
        (acc.testBit j || (decide (j ∈ l) && decide (v j < iso)))
  | [], acc, j => by simp
  | i :: l, acc, j => by
    rw [List.foldl_cons, testBit_foldl_cube iso v l _ j]
    by_cases hij : (j : Nat) = (i : Nat)
    · have hji : j = i := Fin.ext hij
      subst hji
      by_cases hv : v j < iso
      · simp [hv, Nat.testBit_or, Nat.shiftLeft_eq, Nat.testBit_two_pow]
      · simp [hv]
    · have hne : j ≠ i := fun hc => hij (congrArg Fin.val hc)
      have hij' : (i : Nat) ≠ (j : Nat) := fun hc => hij hc.symm
      by_cases hv : v i < iso
      · simp [hv, Nat.testBit_or, Nat.shiftLeft_eq, Nat.testBit_two_pow, hne, hij']
      · simp [hv, hne]

theorem testBit_cube_index (grid : GridCell) (isolevel : ℚ) (j : Fin 8) :
    (cube_index grid isolevel).testBit j = decide (grid.value j < isolevel) := by
  rw [cube_index, testBit_foldl_cube isolevel grid.value (List.finRange 8) 0 j]
  simp [List.mem_finRange]

theorem triangle_walk_eq_map (row : Nat → Int) (verts : Nat → Vec3) :
    ∀ (n k : Nat),
      triangle_walk row verts (3 * k) n =
        ((List.range' k n).takeWhile fun j => decide (0 ≤ row (3 * j))).map
          fun j => (verts (row (3 * j + 2)).toNat, verts (row (3 * j + 1)).toNat,
            verts (row (3 * j)).toNat)
  | 0, k => by simp [triangle_walk]
  | n + 1, k => by
    rw [List.range'_succ, List.takeWhile_cons]
    by_cases hrow : row (3 * k) < 0
    · have : decide (0 ≤ row (3 * k)) = false := by simpa using hrow
      simp [triangle_walk, hrow, this]
    · have hge : decide (0 ≤ row (3 * k)) = true := by simpa using not_lt.mp hrow
      rw [triangle_walk, if_neg hrow]
      rw [show 3 * k + 3 = 3 * (k + 1) by ring, triangle_walk_eq_map row verts n (k + 1)]
      simp [hge]

theorem march_cube_eq_triples (edgeTable : Nat → Nat) (edgeConn : Fin 12 → Fin 8 × Fin 8)
    (triTable : Nat → Nat → Int) (grid : GridCell) (isolevel : ℚ) :
    march_cube edgeTable edgeConn triTable grid isolevel =
      if edgeTable (cube_index grid isolevel) = 0 then none
      else
        some ((sentinel_triples (triTable (cube_index grid isolevel))).map fun j =>
          (march_vertices edgeConn grid isolevel (edgeTable (cube_index grid isolevel))
              ((triTable (cube_index grid isolevel)) (3 * j + 2)).toNat,
            march_vertices edgeConn grid isolevel (edgeTable (cube_index grid isolevel))
              ((triTable (cube_index grid isolevel)) (3 * j + 1)).toNat,
            march_vertices edgeConn grid isolevel (edgeTable (cube_index grid isolevel))
              ((triTable (cube_index grid isolevel)) (3 * j)).toNat)) := by
  rw [march_cube]
  by_cases h : edgeTable (cube_index grid isolevel) = 0
  · simp [h]
  · simp only [h, if_neg h, if_false]
    congr 1
    have := triangle_walk_eq_map (triTable (cube_index grid isolevel))
      (march_vertices edgeConn grid isolevel (edgeTable (cube_index grid isolevel))) 6 0
    rw [show 3 * 0 = 0 by ring] at this
    rw [this, sentinel_triples, List.range_eq_range']

theorem findIdx?_some_spec {α : Type} (p : α → Bool) :
    ∀ (l : List α) (s i : Nat), List.findIdx? p l s = some i →
      s ≤ i ∧ i - s < l.length ∧ ∃ a, l[i - s]? = some a ∧ p a = true
  | [], s, i, h => by simp [List.findIdx?] at h
  | x :: xs, s, i, h => by
    rw [List.findIdx?_cons] at h
    split at h
    · next hp =>
      cases h
      exact ⟨le_rfl, by simp, x, by simp, hp⟩
    · next hp =>
      obtain ⟨hs, hlt, a, ha, hpa⟩ := findIdx?_some_spec p xs (s + 1) i h
      refine ⟨by omega, by simp; omega, a, ?_, hpa⟩
      rw [show i - s = (i - (s + 1)) + 1 by omega]
      simpa using ha

theorem getElem?_append_stable {α : Type} {l l' : List α} {i : Nat} {a : α}
    (h : l[i]? = some a) : (l ++ l')[i]? = some a := by
  have hlt : i < l.length := (List.getElem?_eq_some_iff.mp h).choose
  rw [List.getElem?_append_left hlt]
  exact h

theorem push_vertex_spec (st : List (Vec3 × Vec3) × List Nat) (p : Vec3 × Vec3) :
    ∃ (l : List (Vec3 × Vec3)) (i : Nat),
      (push_vertex st p).1 = st.1 ++ l ∧
      (push_vertex st p).2 = st.2 ++ [i] ∧
      (push_vertex st p).1[i]? = some p := by
  cases hfind : (st.1).findIdx? (fun q => q = p) with
  | none =>
    exact ⟨[p], st.1.length, by simp [push_vertex, hfind], by simp [push_vertex, hfind],
      by simp [push_vertex, hfind, List.getElem?_concat_length]⟩
  | some i =>
    obtain ⟨-, hlt, a, ha, hpa⟩ := findIdx?_some_spec _ st.1 0 i hfind
    have hap : a = p := by simpa using hpa
    subst hap
    simp only [Nat.sub_zero] at ha
    exact ⟨[], i, by simp [push_vertex, hfind], by simp [push_vertex, hfind],
      by simp [push_vertex, hfind, ha]⟩

theorem push_vertex_nodup (st : List (Vec3 × Vec3) × List Nat) (p : Vec3 × Vec3)
    (h : st.1.Nodup) : (push_vertex st p).1.Nodup := by
  cases hfind : (st.1).findIdx? (fun q => q = p) with
  | some i => simpa [push_vertex, hfind] using h
  | none =>
    have hnotmem : p ∉ st.1 := by
      intro hmem
      have := List.findIdx?_eq_none_iff.mp hfind p hmem
      simp at this
    simp [push_vertex, hfind, List.nodup_append, h, hnotmem]

theorem push_vertex_bounds (st : List (Vec3 × Vec3) × List Nat) (p : Vec3 × Vec3)
    (h : ∀ i ∈ st.2, i < st.1.length) :
    (∀ i ∈ (push_vertex st p).2, i < (push_vertex st p).1.length) ∧
      (push_vertex st p).2.length = st.2.length + 1 ∧
      st.1.length ≤ (push_vertex st p).1.length := by
  cases hfind : (st.1).findIdx? (fun q => q = p) with
  | some i =>
    obtain ⟨-, hlt, -⟩ := findIdx?_some_spec _ st.1 0 i hfind
    simp only [Nat.sub_zero] at hlt
    refine ⟨?_, by simp [push_vertex, hfind], by simp [push_vertex, hfind]⟩
    intro j hj
    simp only [push_vertex, hfind, List.mem_append, List.mem_singleton] at hj ⊢
    rcases hj with hj | rfl
    · exact h j hj
    · exact hlt
  | none =>
    refine ⟨?_, by simp [push_vertex, hfind], by simp [push_vertex, hfind]⟩
    intro j hj
    simp only [push_vertex, hfind, List.mem_append, List.mem_singleton,
      List.length_append, List.length_singleton] at hj ⊢
    rcases hj with hj | rfl
    · have := h j hj
      omega
    · omega

theorem process_triangle_nodup (fn : Vec3 → Vec3 → Vec3 → Vec3)
    (st : List (Vec3 × Vec3) × List Nat) (tri : Triangle) (h : st.1.Nodup) :
    (process_triangle fn st tri).1.Nodup :=
  push_vertex_nodup _ _ (push_vertex_nodup _ _ (push_vertex_nodup _ _ h))

theorem process_triangle_spec (fn : Vec3 → Vec3 → Vec3 → Vec3)
    (st : List (Vec3 × Vec3) × List Nat) (tri : Triangle) :
    ∃ (l : List (Vec3 × Vec3)) (i₀ i₁ i₂ : Nat),
      (process_triangle fn st tri).1 = st.1 ++ l ∧
      (process_triangle fn st tri).2 = st.2 ++ [i₀, i₁, i₂] ∧
      (process_triangle fn st tri).1[i₀]? = some (tri.1, fn tri.1 tri.2.1 tri.2.2) ∧
      (process_triangle fn st tri).1[i₁]? = some (tri.2.1, fn tri.1 tri.2.1 tri.2.2) ∧
      (process_triangle fn st tri).1[i₂]? = some (tri.2.2, fn tri.1 tri.2.1 tri.2.2) := by
  obtain ⟨l₀, i₀, h₀f, h₀s, h₀g⟩ :=
    push_vertex_spec st (tri.1, fn tri.1 tri.2.1 tri.2.2)
  obtain ⟨l₁, i₁, h₁f, h₁s, h₁g⟩ :=
    push_vertex_spec (push_vertex st (tri.1, fn tri.1 tri.2.1 tri.2.2))
      (tri.2.1, fn tri.1 tri.2.1 tri.2.2)
  obtain ⟨l₂, i₂, h₂f, h₂s, h₂g⟩ :=
    push_vertex_spec
      (push_vertex (push_vertex st (tri.1, fn tri.1 tri.2.1 tri.2.2))
        (tri.2.1, fn tri.1 tri.2.1 tri.2.2))
      (tri.2.2, fn tri.1 tri.2.1 tri.2.2)
  refine ⟨l₀ ++ (l₁ ++ l₂), i₀, i₁, i₂, ?_, ?_, ?_, ?_, h₂g⟩
  · show (push_vertex (push_vertex (push_vertex st _) _) _).1 = _
    rw [h₂f, h₁f, h₀f, List.append_assoc, List.append_assoc]
  · show (push_vertex (push_vertex (push_vertex st _) _) _).2 = _
    rw [h₂s, h₁s, h₀s, List.append_assoc, List.append_assoc]
    rfl
  · show (push_vertex (push_vertex (push_vertex st _) _) _).1[i₀]? = _
    rw [h₂f, h₁f]
    exact getElem?_append_stable (getElem?_append_stable h₀g)
  · show (push_vertex (push_vertex (push_vertex st _) _) _).1[i₁]? = _
    rw [h₂f]
    exact getElem?_append_stable h₁g

theorem process_triangle_bounds (fn : Vec3 → Vec3 → Vec3 → Vec3)
    (st : List (Vec3 × Vec3) × List Nat) (tri : Triangle)
    (h : ∀ i ∈ st.2, i < st.1.length) :
    (∀ i ∈ (process_triangle fn st tri).2, i < (process_triangle fn st tri).1.length) ∧
      (process_triangle fn st tri).2.length = st.2.length + 3 := by
  obtain ⟨h1, hl1, _⟩ := push_vertex_bounds st (tri.1, fn tri.1 tri.2.1 tri.2.2) h
  obtain ⟨h2, hl2, _⟩ :=
    push_vertex_bounds (push_vertex st (tri.1, fn tri.1 tri.2.1 tri.2.2))
      (tri.2.1, fn tri.1 tri.2.1 tri.2.2) h1
  obtain ⟨h3, hl3, _⟩ :=
    push_vertex_bounds
      (push_vertex (push_vertex st (tri.1, fn tri.1 tri.2.1 tri.2.2))
        (tri.2.1, fn tri.1 tri.2.1 tri.2.2))
      (tri.2.2, fn tri.1 tri.2.1 tri.2.2) h2
  exact ⟨h3, by rw [process_triangle]; omega⟩

theorem build_foldl_concat (fn : Vec3 → Vec3 → Vec3 → Vec3) (ts : List Triangle)
    (t : Triangle) :
    build_vertices_indices fn (ts ++ [t]) =
      process_triangle fn (build_vertices_indices fn ts) t := by
  rw [build_vertices_indices, build_vertices_indices, List.foldl_append]
  rfl

/-- The full deduplication invariant of the mesh builder: the
`(vertex, normal)` table has no duplicate entry, the index list has three
entries per triangle, every index is in range, and the three indices of
triangle `k` (at positions `3k`, `3k+1`, `3k+2`) resolve to exactly that
triangle's vertices paired with its face normal. -/
theorem build_spec (fn : Vec3 → Vec3 → Vec3 → Vec3) (ts : List Triangle) :
    (build_vertices_indices fn ts).1.Nodup ∧
      (build_vertices_indices fn ts).2.length = 3 * ts.length ∧
      (∀ i ∈ (build_vertices_indices fn ts).2,
        i < (build_vertices_indices fn ts).1.length) ∧
      ∀ k, ∀ hk : k < ts.length, ∃ i₀ i₁ i₂ : Nat,
        (build_vertices_indices fn ts).2[3 * k]? = some i₀ ∧
        (build_vertices_indices fn ts).2[3 * k + 1]? = some i₁ ∧
        (build_vertices_indices fn ts).2[3 * k + 2]? = some i₂ ∧
        (build_vertices_indices fn ts).1[i₀]? =
          some (ts[k].1, fn ts[k].1 ts[k].2.1 ts[k].2.2) ∧
        (build_vertices_indices fn ts).1[i₁]? =
          some (ts[k].2.1, fn ts[k].1 ts[k].2.1 ts[k].2.2) ∧
        (build_vertices_indices fn ts).1[i₂]? =
          some (ts[k].2.2, fn ts[k].1 ts[k].2.1 ts[k].2.2) := by
  induction ts using List.reverseRecOn with
  | nil =>
    refine ⟨by simp [build_vertices_indices], by simp [build_vertices_indices],
      by simp [build_vertices_indices], ?_⟩
    intro k hk
    simp at hk
  | append_singleton ts t ih =>
    obtain ⟨ihnodup, ihlen, ihbounds, ihtri⟩ := ih
    rw [build_foldl_concat fn ts t]
    obtain ⟨l, j₀, j₁, j₂, hf, hs, hg₀, hg₁, hg₂⟩ :=
      process_triangle_spec fn (build_vertices_indices fn ts) t
    obtain ⟨hbounds', hlen'⟩ :=
      process_triangle_bounds fn (build_vertices_indices fn ts) t ihbounds
    refine ⟨process_triangle_nodup fn _ t ihnodup, by simp [hlen', ihlen]; ring, hbounds', ?_⟩
    intro k hk
    rcases Nat.lt_or_ge k ts.length with hklt | hkge
    · obtain ⟨i₀, i₁, i₂, hi0, hi1, hi2, he0, he1, he2⟩ := ihtri k hklt
      have hkidx : ∀ r : Nat, r < 3 →
          (process_triangle fn (build_vertices_indices fn ts) t).2[3 * k + r]? =
            (build_vertices_indices fn ts).2[3 * k + r]? := by
        intro r hr
        rw [hs]
        exact List.getElem?_append_left (by omega)
      have hts : (ts ++ [t])[k] = ts[k] := List.getElem_append_left hklt
      refine ⟨i₀, i₁, i₂, ?_, ?_, ?_, ?_, ?_, ?_⟩
      · rw [show 3 * k = 3 * k + 0 by ring, hkidx 0 (by omega)]
        simpa using hi0
      · rw [hkidx 1 (by omega)]
        exact hi1
      · rw [hkidx 2 (by omega)]
        exact hi2
      · rw [hf, hts]
        exact getElem?_append_stable he0
      · rw [hf, hts]
        exact getElem?_append_stable he1
      · rw [hf, hts]
        exact getElem?_append_stable he2
    · have hke : k = ts.length := by
        simp at hk
        omega
      subst hke
      have htk : (ts ++ [t])[ts.length] = t :=
        List.getElem_concat_length ts t ts.length rfl (by simp)
      have hpos : ∀ r : Nat, r < 3 →
          (process_triangle fn (build_vertices_indices fn ts) t).2[3 * ts.length + r]? =
            [j₀, j₁, j₂][r]? := by
        intro r hr
        rw [hs, List.getElem?_append_right (by omega), ihlen]
        congr 1
        omega
      refine ⟨j₀, j₁, j₂, ?_, ?_, ?_, ?_, ?_, ?_⟩
      · rw [show 3 * ts.length = 3 * ts.length + 0 by ring, hpos 0 (by omega)]
        rfl
      · rw [hpos 1 (by omega)]
        rfl
      · rw [hpos 2 (by omega)]
        rfl
      · rw [htk]
        exact hg₀
      · rw [htk]
        exact hg₁
      · rw [htk]
        exact hg₂

theorem index_lt_cube {s x y z : Nat} (hx : x < s) (hy : y < s) (hz : z < s) :
    z * s * s + (y * s + x) < s ^ 3 := by
  have h1 : y * s + x < s * s := by
    have h2 : (y + 1) * s ≤ s * s := Nat.mul_le_mul_right s hy
    have h3 : y * s + x < (y + 1) * s := by
      rw [Nat.succ_mul]
      omega
    omega
  have e1 : z * s * s = z * (s * s) := by ring
  have e2 : s ^ 3 = s * (s * s) := by ring
  have h4 : z * (s * s) + s * s ≤ s * (s * s) := by
    have h5 := Nat.mul_le_mul_right (s * s) (Nat.succ_le_of_lt hz)
    rw [Nat.succ_mul] at h5
    exact h5
  omega

theorem index_components {s x y z : Nat} (hs : 0 < s) (hx : x < s) :
    (z * s * s + (y * s + x)) % s = x ∧ (z * s * s + (y * s + x)) / s = z * s + y := by
  have e : z * s * s + (y * s + x) = s * (z * s + y) + x := by ring
  constructor
  · rw [e, Nat.mul_add_mod, Nat.mod_eq_of_lt hx]
  · rw [e, Nat.mul_add_div hs, Nat.div_eq_of_lt hx, Nat.add_zero]

theorem row_components {s y z : Nat} (hs : 0 < s) (hy : y < s) :
    (z * s + y) % s = y ∧ (z * s + y) / s = z := by
  have e : z * s + y = s * z + y := by ring
  constructor
  · rw [e, Nat.mul_add_mod, Nat.mod_eq_of_lt hy]
  · rw [e, Nat.mul_add_div hs, Nat.div_eq_of_lt hy, Nat.add_zero]

/-- C2 counterexample: a chunk of size 2 whose `points` even satisfies the
claimed `points.length = size³` invariant.  The position `(2, 0, 0)` has a
component outside `[0, size)`, so by the claim `get` must fail — but its
flat index `0*4 + 0*2 + 2 = 2` is in range of the 8-element storage, so
`get` succeeds (it aliases the lattice point `(0, 1, 0)`). -/
theorem c2_claim_counterexample :
    Chunk.get (Chunk.new (List.replicate 8 0) 2) ⟨2, 0, 0⟩ = some 0 ∧ ¬((2 : Nat) < 2) := by
  constructor
  · rfl
  · decide

/-- C2 (amended): `Chunk::get(pos)` and `Chunk::set(pos, value)` fail (the
storage-indexing panic) if and only if the flat index
`pos.z*size² + pos.y*size + pos.x` is at least `points.length`; this is
not equivalent to a per-component bounds check.  In particular, whenever
`points.length = size³` and every component of `pos` lies in `[0, size)`,
both operations succeed. -/
theorem c2_get_set_flat_bounds (c : Chunk) (pos : UVec3) (value : ℚ) :
    (c.get pos = none ↔ c.points.length ≤ c.index pos) ∧
    (c.set pos value = none ↔ c.points.length ≤ c.index pos) ∧
    (c.points.length = c.size ^ 3 → pos.x < c.size → pos.y < c.size → pos.z < c.size →
      (c.get pos).isSome ∧ (c.set pos value).isSome) := by
  refine ⟨List.getElem?_eq_none_iff, ?_, ?_⟩
  · rw [Chunk.set]
    split
    · next h => simp; omega
    · next h => simp; omega
  · intro hlen hx hy hz
    have hlt : c.index pos < c.points.length := by
      rw [hlen]
      exact index_lt_cube hx hy hz
    constructor
    · rw [Chunk.get, List.getElem?_eq_getElem hlt]
      rfl
    · rw [Chunk.set, if_pos hlt]
      rfl

/-- C3 counterexample: the one chunk `setup_chunks` constructs has
`points.length = (CHUNK_SIZE+1)³ = 125`, not `size³ = 64`. -/
theorem c3_claim_counterexample :
    setupChunk.points.length = 125 ∧ setupChunk.size ^ 3 = 64 ∧ (125 : Nat) ≠ 64 := by
  refine ⟨?_, by decide, by decide⟩
  simp [setupChunk, Chunk.new, CHUNK_SIZE]

/-- C3 (amended): every chunk the program constructs (the `setup_chunks`
chunk is the only construction) satisfies `points.length = (size+1)³`,
and the operations preserve it: a successful `set` leaves `points.length`
and `size` unchanged (and `get` does not modify the chunk at all — it is
a pure read in this embedding). -/
theorem c3_chunk_storage_invariant :
    setupChunk.points.length = (setupChunk.size + 1) ^ 3 ∧
    ∀ (c : Chunk) (pos : UVec3) (v : ℚ) (c' : Chunk),
      c.set pos v = some c' → c'.points.length = c.points.length ∧ c'.size = c.size := by
  constructor
  · simp [setupChunk, Chunk.new, CHUNK_SIZE]
  · intro c pos v c' h
    rw [Chunk.set] at h
    split at h
    · simp only [Option.some.injEq] at h
      subst h
      simp [List.length_set]
    · cases h

/-- C9: a successful `Chunk::set(pos, value)` writes `value` at the flat
slot `index(pos)` and changes nothing else: `size`, `points.length`, and
every other storage slot are untouched. -/
theorem c9_set_frame (c : Chunk) (pos : UVec3) (value : ℚ) (c' : Chunk)
    (h : c.set pos value = some c') :
    c'.size = c.size ∧ c'.points.length = c.points.length ∧
    c'.points[c.index pos]? = some value ∧
    ∀ j : Nat, j ≠ c.index pos → c'.points[j]? = c.points[j]? := by
  rw [Chunk.set] at h
  split at h
  · next hlt =>
    simp only [Option.some.injEq] at h
    subst h
    refine ⟨rfl, by simp [List.length_set], ?_, ?_⟩
    · exact List.getElem?_set_self hlt
    · intro j hj
      exact List.getElem?_set_ne (fun hc => hj hc.symm)
  · cases h

/-- C9 witness: setting slot `(1,0,0)` of a concrete two-point chunk. -/
theorem c9_set_frame_witness :
    (Chunk.new ([0, 5] : List ℚ) 1).size = (Chunk.new ([0, 0] : List ℚ) 1).size ∧
    (Chunk.new ([0, 5] : List ℚ) 1).points.length =
      (Chunk.new ([0, 0] : List ℚ) 1).points.length ∧
    (Chunk.new ([0, 5] : List ℚ) 1).points[(Chunk.new ([0, 0] : List ℚ) 1).index ⟨1, 0, 0⟩]? =
      some 5 ∧
    ∀ j : Nat, j ≠ (Chunk.new ([0, 0] : List ℚ) 1).index ⟨1, 0, 0⟩ →
      (Chunk.new ([0, 5] : List ℚ) 1).points[j]? = (Chunk.new ([0, 0] : List ℚ) 1).points[j]? :=
  c9_set_frame (Chunk.new [0, 0] 1) ⟨1, 0, 0⟩ 5 (Chunk.new [0, 5] 1) rfl

/-- C6: for a fixed `size`, the flat addressing
`index(pos) = pos.z*size² + pos.y*size + pos.x` restricted to coordinates
in `[0, size)³` is a bijection onto `[0, size³)`: it lands in range, no
two distinct in-range coordinates collide, and every flat index in range
is hit. -/
theorem c6_index_bijective (c : Chunk) :
    (∀ p : UVec3, p.x < c.size → p.y < c.size → p.z < c.size → c.index p < c.size ^ 3) ∧
    (∀ p q : UVec3, p.x < c.size → p.y < c.size → p.z < c.size →
      q.x < c.size → q.y < c.size → q.z < c.size → c.index p = c.index q → p = q) ∧
    (∀ n : Nat, n < c.size ^ 3 → ∃ p : UVec3,
      p.x < c.size ∧ p.y < c.size ∧ p.z < c.size ∧ c.index p = n) := by
  refine ⟨fun p hx hy hz => index_lt_cube hx hy hz, ?_, ?_⟩
  · intro p q hpx hpy hpz hqx hqy hqz heq
    have hs : 0 < c.size := by omega
    rw [Chunk.index, Chunk.index] at heq
    obtain ⟨hpm, hpd⟩ := index_components (z := p.z) (y := p.y) hs hpx
    obtain ⟨hqm, hqd⟩ := index_components (z := q.z) (y := q.y) hs hqx
    have hx : p.x = q.x := by rw [← hpm, ← hqm, heq]
    have hrow : p.z * c.size + p.y = q.z * c.size + q.y := by rw [← hpd, ← hqd, heq]
    obtain ⟨hpm2, hpd2⟩ := row_components (z := p.z) hs hpy
    obtain ⟨hqm2, hqd2⟩ := row_components (z := q.z) hs hqy
    have hy : p.y = q.y := by rw [← hpm2, ← hqm2, hrow]
    have hz : p.z = q.z := by rw [← hpd2, ← hqd2, hrow]
    obtain ⟨px, py, pz⟩ := p
    obtain ⟨qx, qy, qz⟩ := q
    simp only [UVec3.mk.injEq]
    exact ⟨hx, hy, hz⟩
  · intro n hn
    have hs : 0 < c.size := by
      rcases Nat.eq_zero_or_pos c.size with h0 | h
      · rw [h0] at hn
        simp at hn
      · exact h
    refine ⟨⟨n % c.size, n / c.size % c.size, n / c.size / c.size⟩,
      Nat.mod_lt _ hs, Nat.mod_lt _ hs, ?_, ?_⟩
    · show n / c.size / c.size < c.size
      rw [Nat.div_div_eq_div_mul]
      rw [Nat.div_lt_iff_lt_mul (Nat.mul_pos hs hs)]
      calc n < c.size ^ 3 := hn
        _ = c.size * (c.size * c.size) := by ring
    · show n / c.size / c.size * c.size * c.size +
        (n / c.size % c.size * c.size + n % c.size) = n
      have e : n / c.size / c.size * c.size * c.size +
          (n / c.size % c.size * c.size + n % c.size) =
          (c.size * (n / c.size / c.size) + n / c.size % c.size) * c.size + n % c.size := by
        ring
      rw [e, Nat.div_add_mod (n / c.size) c.size]
      have e2 : n / c.size * c.size = c.size * (n / c.size) := by ring
      rw [e2, Nat.div_add_mod n c.size]

/-- C1 counterexample: for a chunk of size 2 the claim allows only cell
origins in `[0, 2-2] = [0,0]`, yet the sweep visits the origin `(2,2,2)`,
whose components exceed `size - 2 = 0`. -/
theorem c1_claim_counterexample :
    (⟨2, 2, 2⟩ : UVec3) ∈ sweepOrigins 2 ∧ ¬((2 : Nat) ≤ 2 - 2) := by
  decide

/-- C1 (amended): a full `update_chunk` sweep (reset, then drain the
chunk's `Chunk::new_iter_3d(size)` iterator, marching one cell per
yielded position) evaluates exactly the cells whose integer origins lie
in `[0, size]` on each axis — `(size+1)³` cells, not `(size-1)³` — and
each such cell exactly once, in row-major order. -/
theorem c1_sweep_inclusive_box (size : Nat) :
    sweepOrigins size = rowMajor ⟨0, 0, 0⟩ ⟨size, size, size⟩ ∧
    (sweepOrigins size).length = (size + 1) ^ 3 ∧
    ∀ p : UVec3, (sweepOrigins size).count p =
      if p.x ≤ size ∧ p.y ≤ size ∧ p.z ≤ size then 1 else 0 := by
  have hrm : sweepOrigins size = rowMajor ⟨0, 0, 0⟩ ⟨size, size, size⟩ := by
    show (Iter3d.new ⟨0, 0, 0⟩ ⟨size, size, size⟩).toList = _
    exact toList_new_eq_rowMajor _ _ (Nat.zero_le _) (Nat.zero_le _) (Nat.zero_le _)
  refine ⟨hrm, ?_, ?_⟩
  · rw [hrm, length_rowMajor]
    dsimp only
    simp only [Nat.sub_zero]
    ring
  · intro p
    rw [hrm, count_rowMajor]
    simp [Nat.zero_le]

/-- C4: for every `min ≤ max` (componentwise), iterating
`Iter3d::new(min, max)` to exhaustion yields the row-major enumeration of
the inclusive box — every in-box coordinate exactly once, x fastest and z
slowest — and yields nothing beyond it: any fuel at least the element
count produces the same full list, so no value follows
`(max.x, max.y, max.z)`.  The concrete conjunct checks the 8-coordinate
order for `min = (0,0,0)`, `max = (1,1,1)` with one extra step of fuel. -/
theorem c4_iter3d_row_major (mn mx : UVec3)
    (hx : mn.x ≤ mx.x) (hy : mn.y ≤ mx.y) (hz : mn.z ≤ mx.z) :
    (∀ fuel, (rowMajor mn mx).length ≤ fuel →
      Iter3d.runFuel fuel (Iter3d.new mn mx) = rowMajor mn mx) ∧
    (∀ p : UVec3, p ∈ rowMajor mn mx ↔
      (mn.x ≤ p.x ∧ p.x ≤ mx.x) ∧ (mn.y ≤ p.y ∧ p.y ≤ mx.y) ∧
        (mn.z ≤ p.z ∧ p.z ≤ mx.z)) ∧
    (∀ p : UVec3, p ∈ rowMajor mn mx → (rowMajor mn mx).count p = 1) ∧
    Iter3d.runFuel 9 (Iter3d.new ⟨0, 0, 0⟩ ⟨1, 1, 1⟩) =
      [⟨0, 0, 0⟩, ⟨1, 0, 0⟩, ⟨0, 1, 0⟩, ⟨1, 1, 0⟩,
        ⟨0, 0, 1⟩, ⟨1, 0, 1⟩, ⟨0, 1, 1⟩, ⟨1, 1, 1⟩] :=
  ⟨fun fuel hf => runFuel_new_eq_rowMajor mn mx hx hy hz fuel hf,
    fun p => mem_rowMajor p,
    fun _ hp => List.count_eq_one_of_mem (nodup_rowMajor mn mx) hp,
    by decide⟩

/-- C4 witness: the general theorem applied to the box
`(0,0,0)..(1,1,1)` with exactly enough fuel. -/
theorem c4_iter3d_row_major_witness :
    Iter3d.runFuel 8 (Iter3d.new ⟨0, 0, 0⟩ ⟨1, 1, 1⟩) = rowMajor ⟨0, 0, 0⟩ ⟨1, 1, 1⟩ :=
  (c4_iter3d_row_major ⟨0, 0, 0⟩ ⟨1, 1, 1⟩ (by decide) (by decide) (by decide)).1 8
    (by decide)

/-- C5: `march_cube` sets bit `i` of its 8-bit `cube_index` iff
`value[i] < isolevel`, and its output walks the sentinel-terminated
triples of the `TRIANGLE_TABLE` row for that index, emitting for triple
`j` (slots `3j`, `3j+1`, `3j+2`) the interpolated edge vertices in
reverse slot order `(3j+2, 3j+1, 3j)`; the tables are parameters, their
module being absent from the sources (spec §4.3). -/
theorem c5_march_cube_conventions (edgeTable : Nat → Nat)
    (edgeConn : Fin 12 → Fin 8 × Fin 8) (triTable : Nat → Nat → Int)
    (grid : GridCell) (isolevel : ℚ) :
    (∀ i : Fin 8, (cube_index grid isolevel).testBit i =
      decide (grid.value i < isolevel)) ∧
    march_cube edgeTable edgeConn triTable grid isolevel =
      (if edgeTable (cube_index grid isolevel) = 0 then none
       else
        some ((sentinel_triples (triTable (cube_index grid isolevel))).map fun j =>
          (march_vertices edgeConn grid isolevel (edgeTable (cube_index grid isolevel))
              ((triTable (cube_index grid isolevel)) (3 * j + 2)).toNat,
            march_vertices edgeConn grid isolevel (edgeTable (cube_index grid isolevel))
              ((triTable (cube_index grid isolevel)) (3 * j + 1)).toNat,
            march_vertices edgeConn grid isolevel (edgeTable (cube_index grid isolevel))
              ((triTable (cube_index grid isolevel)) (3 * j)).toNat))) :=
  ⟨fun i => testBit_cube_index grid isolevel i,
    march_cube_eq_triples edgeTable edgeConn triTable grid isolevel⟩

/-- C7: the ε-guard cascade of `vertex_interp` (ε = 0.00001 = 1/100000):
`p1` exactly when `valp1 = isolevel`; `p1` under the first guard; `p2`
under the second guard when the first fails; `p1` under the degenerate
gradient guard when both fail; and when all three guards fail,
`|valp1 - valp2| ≥ ε` holds — so the interpolation division is evaluated
only there — and the result is `p1 + mu*(p2 - p1)`. -/
theorem c7_vertex_interp_guards (isolevel : ℚ) (p1 p2 : Vec3) (valp1 valp2 : ℚ) :
    (valp1 = isolevel → vertex_interp isolevel p1 p2 valp1 valp2 = p1) ∧
    (|isolevel - valp1| < 1 / 100000 → vertex_interp isolevel p1 p2 valp1 valp2 = p1) ∧
    (¬(|isolevel - valp1| < 1 / 100000) → |isolevel - valp2| < 1 / 100000 →
      vertex_interp isolevel p1 p2 valp1 valp2 = p2) ∧
    (¬(|isolevel - valp1| < 1 / 100000) → ¬(|isolevel - valp2| < 1 / 100000) →
      |valp1 - valp2| < 1 / 100000 → vertex_interp isolevel p1 p2 valp1 valp2 = p1) ∧
    (¬(|isolevel - valp1| < 1 / 100000) → ¬(|isolevel - valp2| < 1 / 100000) →
      ¬(|valp1 - valp2| < 1 / 100000) →
      1 / 100000 ≤ |valp1 - valp2| ∧
      vertex_interp isolevel p1 p2 valp1 valp2 =
        p1 + ((isolevel - valp1) / (valp2 - valp1)) • (p2 - p1)) := by
  refine ⟨?_, ?_, ?_, ?_, ?_⟩
  · intro h
    have hguard : |isolevel - valp1| < 1 / 100000 := by
      rw [h, sub_self, abs_zero]
      norm_num
    rw [vertex_interp, if_pos hguard]
  · intro h
    rw [vertex_interp, if_pos h]
  · intro h1 h2
    rw [vertex_interp, if_neg h1, if_pos h2]
  · intro h1 h2 h3
    rw [vertex_interp, if_neg h1, if_neg h2, if_pos h3]
  · intro h1 h2 h3
    exact ⟨not_lt.mp h3, by rw [vertex_interp, if_neg h1, if_neg h2, if_neg h3]⟩

/-- C8: the indexed mesh built from any triangle list has positions,
normals and UVs of equal length, every UV entry `(0,0)`, exactly
`3 * triangleCount` indices, and every index within the vertex table. -/
theorem c8_indexed_mesh_shape (face_normal : Vec3 → Vec3 → Vec3 → Vec3)
    (triangles : List Triangle) :
    (chunkMeshToMesh face_normal triangles).positions.length =
      (chunkMeshToMesh face_normal triangles).normals.length ∧
    (chunkMeshToMesh face_normal triangles).positions.length =
      (chunkMeshToMesh face_normal triangles).uvs.length ∧
    (∀ u ∈ (chunkMeshToMesh face_normal triangles).uvs, u = ((0 : ℚ), (0 : ℚ))) ∧
    (chunkMeshToMesh face_normal triangles).indices.length = 3 * triangles.length ∧
    ∀ i ∈ (chunkMeshToMesh face_normal triangles).indices,
      i < (chunkMeshToMesh face_normal triangles).positions.length := by
  obtain ⟨-, hlen, hbounds, -⟩ := build_spec face_normal triangles
  refine ⟨by simp [chunkMeshToMesh], by simp [chunkMeshToMesh], ?_, ?_, ?_⟩
  · intro u hu
    simp only [chunkMeshToMesh, List.mem_map] at hu
    obtain ⟨-, -, hu⟩ := hu
    exact hu.symm
  · simpa [chunkMeshToMesh] using hlen
  · intro i hi
    have hib := hbounds i (by simpa [chunkMeshToMesh] using hi)
    simpa [chunkMeshToMesh] using hib

/-- C10: the deduplicated `(position, normal)` table contains no two
equal entries; a pair is appended exactly when no previously emitted
entry equals it (otherwise the existing entry's index is reused); and the
three indices emitted for triangle `k` resolve, in the final table, to
that triangle's three vertex positions each paired with its face normal.
The face-normal function is a parameter (its `normalize` has no exact
counterpart); the dedup logic never looks inside it. -/
theorem c10_dedup_table (face_normal : Vec3 → Vec3 → Vec3 → Vec3)
    (triangles : List Triangle) :
    (build_vertices_indices face_normal triangles).1.Nodup ∧
    (∀ (st : List (Vec3 × Vec3) × List Nat) (p : Vec3 × Vec3),
      (p ∈ st.1 → (push_vertex st p).1 = st.1) ∧
      (p ∉ st.1 → (push_vertex st p).1 = st.1 ++ [p])) ∧
    ∀ k, ∀ hk : k < triangles.length, ∃ i₀ i₁ i₂ : Nat,
      (build_vertices_indices face_normal triangles).2[3 * k]? = some i₀ ∧
      (build_vertices_indices face_normal triangles).2[3 * k + 1]? = some i₁ ∧
      (build_vertices_indices face_normal triangles).2[3 * k + 2]? = some i₂ ∧
      (build_vertices_indices face_normal triangles).1[i₀]? =
        some (triangles[k].1,
          face_normal triangles[k].1 triangles[k].2.1 triangles[k].2.2) ∧
      (build_vertices_indices face_normal triangles).1[i₁]? =
        some (triangles[k].2.1,
          face_normal triangles[k].1 triangles[k].2.1 triangles[k].2.2) ∧
      (build_vertices_indices face_normal triangles).1[i₂]? =
        some (triangles[k].2.2,
          face_normal triangles[k].1 triangles[k].2.1 triangles[k].2.2) := by
  refine ⟨(build_spec face_normal triangles).1, ?_, (build_spec face_normal triangles).2.2.2⟩
  intro st p
  constructor
  · intro hmem
    cases hfind : (st.1).findIdx? (fun q => q = p) with
    | some i => simp [push_vertex, hfind]
    | none =>
      have := List.findIdx?_eq_none_iff.mp hfind p hmem
      simp at this
  · intro hnot
    cases hfind : (st.1).findIdx? (fun q => q = p) with
    | some i =>
      obtain ⟨-, hlt, a, ha, hpa⟩ := findIdx?_some_spec _ st.1 0 i hfind
      have hap : a = p := by simpa using hpa
      subst hap
      simp only [Nat.sub_zero] at ha
      exact absurd (List.getElem?_mem ha) hnot
    | none => simp [push_vertex, hfind]
